import Mathlib

/-!
Shallow embedding of the core of the `scec` cryptocurrency exchange client:
the order-book walk (`Broker.get_estimated_market_buy_price`), the
multi-exchange aggregation (`Broker.get_lowest_market_buy_price`, including a
faithful model of CPython `heapq.heappush` / `heapq.heappop` and of Python
tuple comparison), pair lookup (`CryptocurrencyExchange.get_pair`), HTTP
error handling (`CryptocurrencyExchange.send_request`) and the Kraken
Futures response handler (`KrakenFutures.handle_response`).

Python floats are modelled as exact rationals, Python exceptions as an
explicit error type threaded through `Except`, and in-place mutation of the
order book as explicit state passing.  Loops whose termination measure is
not structural are encoded with explicit fuel chosen so that the fuel-out
branch is unreachable from the wrapper entry points.
-/

namespace Scec

/-- One price level of resting liquidity (`OrderBookOrder` in `base.py`). -/
structure OrderBookOrder where
  price : ℚ
  quantity : ℚ
deriving DecidableEq

/-- An exchange order book (`OrderBook` in `base.py`). -/
structure OrderBook where
  bids : List OrderBookOrder
  asks : List OrderBookOrder
deriving DecidableEq

/-- JSON values as produced by `response.json()` (numbers restricted to the
integers that appear in the payloads this development reasons about). -/
inductive PyJson where
  | null : PyJson
  | bool : Bool → PyJson
  | num : Int → PyJson
  | str : String → PyJson
  | arr : List PyJson → PyJson
  | obj : List (String × PyJson) → PyJson

mutual

/-- Model of Python `repr` on JSON-like values (string escaping inside
container reprs is not modelled; it never matters for the payloads below). -/
def pyRepr : PyJson → String
  | .null => "None"
  | .bool true => "True"
  | .bool false => "False"
  | .num n => toString n
  | .str s => "\x27" ++ s ++ "\x27"
  | .arr xs => "[" ++ pyReprArr xs ++ "]"
  | .obj kvs => "\x7b" ++ pyReprObj kvs ++ "\x7d"

/-- `repr` of the elements of a Python list, comma separated. -/
def pyReprArr : List PyJson → String
  | [] => ""
  | [x] => pyRepr x
  | x :: y :: t => pyRepr x ++ ", " ++ pyReprArr (y :: t)

/-- `repr` of the items of a Python dict, comma separated. -/
def pyReprObj : List (String × PyJson) → String
  | [] => ""
  | [(k, v)] => "\x27" ++ k ++ "\x27: " ++ pyRepr v
  | (k, v) :: kv :: t => "\x27" ++ k ++ "\x27: " ++ pyRepr v ++ ", " ++ pyReprObj (kv :: t)

end

/-- Model of Python `str` on JSON-like values (`str` is the identity on
strings and agrees with `repr` elsewhere). -/
def pyStr : PyJson → String
  | .str s => s
  | v => pyRepr v

/-- Substring test on character lists: does the second list contain `sub` as
a contiguous run? -/
def charsContain (sub : List Char) : List Char → Bool
  | [] => sub.isEmpty
  | c :: t => sub.isPrefixOf (c :: t) || charsContain sub t

/-- Substring test: does `s` contain `sub`?  Used to state the "the message
carries X" parts of the error-handling claims. -/
def strContains (s sub : String) : Bool :=
  charsContain sub.data s.data

/-- An HTTP response as seen by `send_request`: status code, body text, and
the result of the external JSON parser on the body (`none` models a
`ValueError` raised by `response.json()`). -/
structure HttpResponse where
  status_code : Nat
  content : String
  jsonBody : Option PyJson

/-- Exceptions the embedded code can raise.  The `exchange*` constructors are
the `ExchangeException` subclasses of `exceptions.py`; the remaining
constructors are Python builtins (`RuntimeError`, `TypeError`,
`ZeroDivisionError`, `KeyError`, `ValueError`, `IndexError`). -/
inductive PyError where
  | exchangeAuthenticationError : String → PyError
  | exchangeBadResponseError : String → Option HttpResponse → PyError
  | exchangeRateLimitExceededError : String → PyError
  | exchangeInsufficientFundsError : String → PyError
  | exchangeLiquidityError : String → PyError
  | exchangePairDoesNotExistError : String → PyError
  | runtimeError : String → PyError
  | typeError : PyError
  | zeroDivisionError : PyError
  | keyError : PyError
  | valueError : PyError
  | indexError : PyError

/-- Membership in the shared error taxonomy of `exceptions.py`: exactly the
`ExchangeException` subclasses, not the Python builtins. -/
def isExchangeException : PyError → Bool
  | .exchangeAuthenticationError _ => true
  | .exchangeBadResponseError _ _ => true
  | .exchangeRateLimitExceededError _ => true
  | .exchangeInsufficientFundsError _ => true
  | .exchangeLiquidityError _ => true
  | .exchangePairDoesNotExistError _ => true
  | _ => false

/-- `CryptocurrencyExchange.send_request` (`base.py`), after the retried
network call has produced a response.  `requests.codes.ok` is 200.  On a
non-200 status the error message is the JSON `msg` field when the body is a
JSON object carrying one, the raw body when the body is not JSON or not an
object (the `ValueError` / `TypeError` handler), and "Unknown error
occurred." when the JSON object has no `msg` key (the `KeyError` handler);
the raised `ExchangeBadResponseError` carries the original response. -/
def send_request (resp : HttpResponse)
    (callback : Option (HttpResponse → Except PyError PyJson)) :
    Except PyError PyJson :=
  if resp.status_code ≠ 200 then
    let msg : String :=
      match resp.jsonBody with
      | none => resp.content
      | some (.obj kvs) =>
        match kvs.find? (fun kv => kv.1 == "msg") with
        | some kv => pyStr kv.2
        | none => "Unknown error occurred."
      | some _ => resp.content
    .error (.exchangeBadResponseError
      ("Request failed with status code " ++ toString resp.status_code ++
        ", error message: " ++ msg) (some resp))
  else
    match callback with
    | some cb => cb resp
    | none =>
      match resp.jsonBody with
      | some j => .ok j
      | none => .error .valueError

/-- Modelled from the spec (§6): the message a non-2xx bad-response error is
claimed to carry — "the parsed error message (from a JSON `msg` field when
present, else raw body)".  Spec-side description used to test claim C8. -/
def specClaimedMsg (resp : HttpResponse) : String :=
  match resp.jsonBody with
  | some (.obj kvs) =>
    match kvs.find? (fun kv => kv.1 == "msg") with
    | some kv => pyStr kv.2
    | none => resp.content
  | _ => resp.content

/-- The property claim C8 asserts of a single HTTP response: every non-2xx
response raises a bad-response error carrying the spec-claimed message and
the original response. -/
def C8Claim (resp : HttpResponse) : Prop :=
  ¬(200 ≤ resp.status_code ∧ resp.status_code ≤ 299) →
    ∃ m, send_request resp none = .error (.exchangeBadResponseError m (some resp)) ∧
      strContains m (specClaimedMsg resp) = true

/-- A trading pair (`Pair` in `base.py`). -/
structure Pair where
  base : String
  quote : String
  symbol : String
deriving DecidableEq

/-- `CryptocurrencyExchange.get_pair`: linear scan over the loaded pairs,
matching the native symbol or the base+quote concatenation; `name` is the
exchange display name used in the failure message. -/
def get_pair (pairs : List Pair) (name symbol : String) : Except PyError Pair :=
  match pairs with
  | [] => .error (.exchangePairDoesNotExistError
      ("Trading pair \x27" ++ symbol ++ "\x27 not found on \x27" ++ name ++ "\x27"))
  | p :: rest =>
    if p.symbol == symbol || p.base ++ p.quote == symbol then .ok p
    else get_pair rest name symbol

/-- Python `key in container` (the `in` operator) for the payload shapes
`handle_response` can receive: key membership on dicts, element equality on
lists, substring test on strings, `TypeError` otherwise. -/
def pyContains (container : PyJson) (key : String) : Except PyError Bool :=
  match container with
  | .obj kvs => .ok (kvs.any fun kv => kv.1 == key)
  | .arr xs => .ok (xs.any fun x => match x with | .str s => s == key | _ => false)
  | .str s => .ok (strContains s key)
  | _ => .error .typeError

/-- Python `container[key]` for a string key: dict lookup (`KeyError` when
absent), `TypeError` on non-dicts. -/
def pyGetItem (container : PyJson) (key : String) : Except PyError PyJson :=
  match container with
  | .obj kvs =>
    match kvs.find? (fun kv => kv.1 == key) with
    | some kv => .ok kv.2
    | none => .error .keyError
  | _ => .error .typeError

/-- `KrakenFutures.error_mapping`: venue error code → exception constructor,
in source order. -/
def error_mapping : List (String × (String → PyError)) :=
  [("apiLimitExceeded", fun m => .exchangeRateLimitExceededError m),
   ("requiredArgumentMissing", fun m => .exchangeBadResponseError m none),
   ("unavailable", fun m => .exchangeBadResponseError m none),
   ("authenticationError", fun m => .exchangeAuthenticationError m),
   ("insufficientFunds", fun m => .exchangeInsufficientFundsError m),
   ("Bad Request", fun m => .exchangeBadResponseError m none),
   ("Json Parse Error", fun m => .exchangeBadResponseError m none),
   ("nonceBelowThreshold", fun m => .exchangeAuthenticationError m),
   ("Server Error", fun m => .exchangeBadResponseError m none),
   ("unknownError", fun m => .exchangeBadResponseError m none)]

/-- `KrakenFutures.handle_response` on the parsed response JSON: a payload
with no `result` key raises a generic bad-response error embedding the
payload; otherwise, when an `error` key is present and its value is one of
the mapped venue codes, the mapped exception is raised with the code as its
message; otherwise the payload is returned. -/
def handle_response (response_json : PyJson) : Except PyError PyJson := do
  let hasResult ← pyContains response_json "result"
  if !hasResult then
    .error (.exchangeBadResponseError
      ("Kraken Futures API error: " ++ pyStr response_json) none)
  else do
    let hasError ← pyContains response_json "error"
    if hasError then do
      let errval ← pyGetItem response_json "error"
      match errval with
      | .str code =>
        match error_mapping.find? (fun kv => kv.1 == code) with
        | some kv => .error (kv.2 code)
        | none => .ok response_json
      | _ => .ok response_json
    else .ok response_json

/-- The while-loop of `Broker.get_estimated_market_buy_price`: pops asks
from the front while liquidity is still needed.  Returns the accumulated
`fill_amounts_at_price` list, the remaining `order_size`, and the asks left
in the (in-place consumed) order book. -/
def fillLoop : List OrderBookOrder → ℚ → List (ℚ × ℚ) × ℚ × List OrderBookOrder
  | [], order_size => ([], order_size, [])
  | ask :: rest, order_size =>
    if 0 < order_size then
      if order_size ≤ ask.quantity then
        ([(ask.price, order_size)], 0, rest)
      else
        let r := fillLoop rest (order_size - ask.quantity)
        ((ask.price, ask.quantity) :: r.1, r.2.1, r.2.2)
    else ([], order_size, ask :: rest)

/-- `Broker.get_estimated_market_buy_price` (`broker.py`), after the order
book has been fetched from the exchange.  Returns the result together with
the final state of the order book object the walk consumed in place.  A
float division by zero raises `ZeroDivisionError` in Python, modelled by the
explicit check on the denominator. -/
def get_estimated_market_buy_price (order_book : OrderBook) (order_size : ℚ) :
    Except PyError ℚ × OrderBook :=
  let r := fillLoop order_book.asks order_size
  let fill_amounts_at_price := r.1
  let book : OrderBook := ⟨order_book.bids, r.2.2⟩
  if 0 < r.2.1 then
    (.error (.exchangeLiquidityError "Insufficient liquidity in orderbook to fill order"),
      book)
  else
    let price_sum := (fill_amounts_at_price.map fun f => f.1 * f.2).sum
    let amount_sum := (fill_amounts_at_price.map fun f => f.2).sum
    if amount_sum = 0 then (.error .zeroDivisionError, book)
    else (.ok (price_sum / amount_sum), book)

/-- Modelled from the spec (§4.2): greedily take `min(level.quantity,
remaining_size)` at `level.price` from the front, stopping once nothing
remains.  Spec-side description of the walk, used to check the code refines
it. -/
def greedyFills : List OrderBookOrder → ℚ → List (ℚ × ℚ)
  | [], _ => []
  | a :: rest, s =>
    if 0 < s then (a.price, min a.quantity s) :: greedyFills rest (s - min a.quantity s)
    else []

/-- An exchange as the aggregator sees it: an instance identity (`eid`; two
distinct Python instances have distinct `eid`s) and the order-book snapshot
its `get_order_book` returns for the queried symbol. -/
structure Exchange where
  eid : Nat
  book : OrderBook
deriving DecidableEq

/-- Items on the broker's heap: `(price, exchange)` tuples. -/
abbrev HeapItem := ℚ × Exchange

/-- Python `<` on `(float, CryptocurrencyExchange)` tuples: compares prices
first; on equal prices it moves to the exchange objects, which define no
ordering, so Python raises `TypeError` unless the tuples are equal (equality
on instances is identity, modelled by value equality; fully equal tuples
fall through to the length comparison `2 < 2`, which is `False`). -/
def tupleLt (a b : HeapItem) : Except PyError Bool :=
  if a.1 = b.1 then
    if a.2 = b.2 then .ok false
    else .error .typeError
  else .ok (decide (a.1 < b.1))

/-- CPython `heapq._siftdown(heap, startpos, pos)` with `newitem` the value
read from `heap[pos]`: moves parents down while `newitem` compares strictly
less, then writes `newitem`.  The loop is encoded with explicit fuel;
`fuel = pos` always suffices because `pos` strictly decreases to
`(pos - 1) / 2` each iteration, so the fuel-out branch is unreachable from
`siftdown`. -/
def siftdownLoop :
    Nat → List HeapItem → Nat → Nat → HeapItem → Except PyError (List HeapItem)
  | 0, heap, startpos, pos, newitem =>
    if startpos < pos then .error .indexError
    else .ok (heap.set pos newitem)
  | fuel + 1, heap, startpos, pos, newitem =>
    if startpos < pos then
      let parentpos := (pos - 1) / 2
      match heap[parentpos]? with
      | none => .error .indexError
      | some parent =>
        match tupleLt newitem parent with
        | .error e => .error e
        | .ok true => siftdownLoop fuel (heap.set pos parent) startpos parentpos newitem
        | .ok false => .ok (heap.set pos newitem)
    else .ok (heap.set pos newitem)

/-- CPython `heapq._siftdown(heap, startpos, pos)`. -/
def siftdown (heap : List HeapItem) (startpos pos : Nat) (newitem : HeapItem) :
    Except PyError (List HeapItem) :=
  siftdownLoop pos heap startpos pos newitem

/-- CPython `heapq.heappush`: append the item, then sift the new leaf
towards the root. -/
def heappush (heap : List HeapItem) (item : HeapItem) : Except PyError (List HeapItem) :=
  siftdown (heap ++ [item]) 0 heap.length item

/-- Loop of CPython `heapq._siftup(heap, pos)`: walk the smaller-child path
down to a leaf, then `_siftdown` back up.  Fuel `heap.length` suffices since
`pos` strictly increases while staying below `heap.length`. -/
def siftupLoop :
    Nat → List HeapItem → Nat → Nat → HeapItem → Except PyError (List HeapItem)
  | 0, heap, startpos, pos, newitem =>
    if 2 * pos + 1 < heap.length then .error .indexError
    else siftdown (heap.set pos newitem) startpos pos newitem
  | fuel + 1, heap, startpos, pos, newitem =>
    if 2 * pos + 1 < heap.length then
      let childpos := 2 * pos + 1
      let step : Except PyError Nat :=
        if childpos + 1 < heap.length then
          match heap[childpos]?, heap[childpos + 1]? with
          | some c, some r =>
            match tupleLt c r with
            | .error e => .error e
            | .ok b => .ok (if b then childpos else childpos + 1)
          | _, _ => .error .indexError
        else .ok childpos
      match step with
      | .error e => .error e
      | .ok cp =>
        match heap[cp]? with
        | none => .error .indexError
        | some child => siftupLoop fuel (heap.set pos child) startpos cp newitem
    else siftdown (heap.set pos newitem) startpos pos newitem

/-- CPython `heapq._siftup(heap, pos)` (here with the start position and the
value read from `heap[pos]` passed explicitly, as `heappop` uses them). -/
def siftup (heap : List HeapItem) (startpos pos : Nat) (newitem : HeapItem) :
    Except PyError (List HeapItem) :=
  siftupLoop heap.length heap startpos pos newitem

/-- CPython `heapq.heappop`: pop the last element; if the heap is still
nonempty, move the last element to the root and sift it down, returning the
old root.  Also returns the resulting heap (which the broker discards). -/
def heappop (heap : List HeapItem) : Except PyError (HeapItem × List HeapItem) :=
  match heap.getLast? with
  | none => .error .indexError
  | some lastelt =>
    match heap.dropLast with
    | [] => .ok (lastelt, [])
    | r0 :: rest =>
      match siftup ((r0 :: rest).set 0 lastelt) 0 0 lastelt with
      | .error e => .error e
      | .ok h2 => .ok (r0, h2)

/-- `Broker.get_lowest_market_buy_price` (`broker.py`): estimate on every
exchange (the `asyncio.gather` fan-out, iterating the exchange set in one
fixed order), `heappush` every `(price, exchange)` pair, then `heappop` the
minimum; an empty exchange set leaves the heap empty and raises a bare
`RuntimeError`. -/
def get_lowest_market_buy_price (exchanges : List Exchange) (amount : ℚ) :
    Except PyError (ℚ × Exchange) := do
  let prices ← exchanges.mapM (fun ex => (get_estimated_market_buy_price ex.book amount).1)
  let exchange_prices ← (prices.zip exchanges).foldlM heappush []
  match exchange_prices with
  | [] => .error (.runtimeError "No exchanges available to get lowest market price")
  | _ :: _ => do
    let popped ← heappop exchange_prices
    .ok popped.1

end Scec

namespace Scec

/-! ### Generic helper lemmas -/

theorem charsContain_nil (l : List Char) : charsContain [] l = true := by
  induction l with
  | nil => rfl
  | cons c t ih => simp [charsContain, ih, List.isPrefixOf]

theorem isPrefixOf_append_self (l r : List Char) : l.isPrefixOf (l ++ r) = true := by
  induction l with
  | nil => simp [List.isPrefixOf]
  | cons a t ih => simp [List.isPrefixOf, ih]

theorem charsContain_append (pre sub post : List Char) :
    charsContain sub (pre ++ (sub ++ post)) = true := by
  induction pre with
  | nil =>
    cases sub with
    | nil => simpa using charsContain_nil post
    | cons s ss => simp [charsContain, isPrefixOf_append_self]
  | cons c t ih => simp [charsContain, ih]

theorem strContains_of_data (s sub : String) (pre post : List Char)
    (h : s.data = pre ++ (sub.data ++ post)) : strContains s sub = true := by
  unfold strContains
  rw [h]
  exact charsContain_append pre sub.data post

end Scec

namespace Scec

/-! ### Order-book walk lemmas -/

theorem greedyFills_nonpos (asks : List OrderBookOrder) (s : ℚ) (h : ¬0 < s) :
    greedyFills asks s = [] := by
  cases asks with
  | nil => rfl
  | cons a rest => simp [greedyFills, h]

theorem fillLoop_fills_eq_greedy (asks : List OrderBookOrder) (s : ℚ) :
    (fillLoop asks s).1 = greedyFills asks s := by
  induction asks generalizing s with
  | nil => simp [fillLoop, greedyFills]
  | cons a rest ih =>
    by_cases h : 0 < s
    · by_cases h2 : s ≤ a.quantity
      · simp [fillLoop, greedyFills, h, h2, min_eq_right h2,
          greedyFills_nonpos rest 0 (lt_irrefl 0)]
      · have hlt : a.quantity < s := lt_of_not_le h2
        simp [fillLoop, greedyFills, h, h2, min_eq_left hlt.le, ih]
    · simp [fillLoop, greedyFills_nonpos _ _ h, h]

theorem fillLoop_success (asks : List OrderBookOrder) (s : ℚ) (hpos : 0 < s)
    (hcov : s ≤ (asks.map OrderBookOrder.quantity).sum) :
    (fillLoop asks s).2.1 = 0 ∧ ((fillLoop asks s).1.map (fun f => f.2)).sum = s := by
  induction asks generalizing s with
  | nil =>
    simp only [List.map_nil, List.sum_nil] at hcov
    exact absurd hcov (not_le.mpr hpos)
  | cons a rest ih =>
    by_cases h2 : s ≤ a.quantity
    · simp [fillLoop, hpos, h2]
    · have hlt : a.quantity < s := lt_of_not_le h2
      have hpos' : 0 < s - a.quantity := by linarith
      have hcov' : s - a.quantity ≤ (rest.map OrderBookOrder.quantity).sum := by
        simp only [List.map_cons, List.sum_cons] at hcov
        linarith
      obtain ⟨hrem, hsum⟩ := ih (s - a.quantity) hpos' hcov'
      refine ⟨?_, ?_⟩
      · simp [fillLoop, hpos, h2, hrem]
      · simp only [fillLoop, if_pos hpos, if_neg h2, List.map_cons, List.sum_cons, hsum]
        ring

theorem fillLoop_insufficient (asks : List OrderBookOrder) (s : ℚ)
    (hq : ∀ a ∈ asks, 0 ≤ a.quantity)
    (h : (asks.map OrderBookOrder.quantity).sum < s) :
    0 < (fillLoop asks s).2.1 := by
  induction asks generalizing s with
  | nil => simpa [fillLoop] using h
  | cons a rest ih =>
    have hrest : 0 ≤ (rest.map OrderBookOrder.quantity).sum :=
      List.sum_nonneg (by
        intro x hx
        obtain ⟨b, hb, rfl⟩ := List.mem_map.mp hx
        exact hq b (List.mem_cons_of_mem _ hb))
    simp only [List.map_cons, List.sum_cons] at h
    have hq0 : 0 ≤ a.quantity := hq a (List.mem_cons_self a rest)
    have hpos : 0 < s := by linarith
    have h2 : ¬s ≤ a.quantity := by linarith
    have h' : (rest.map OrderBookOrder.quantity).sum < s - a.quantity := by linarith
    have := ih (s - a.quantity) (fun b hb => hq b (List.mem_cons_of_mem _ hb)) h'
    simpa [fillLoop, hpos, h2] using this

theorem fillLoop_suffix (asks : List OrderBookOrder) (s : ℚ) :
    (fillLoop asks s).2.2 <:+ asks := by
  induction asks generalizing s with
  | nil => simp [fillLoop]
  | cons a rest ih =>
    by_cases h : 0 < s
    · by_cases h2 : s ≤ a.quantity
      · simp [fillLoop, h, h2]
      · simpa [fillLoop, h, h2] using (ih (s - a.quantity)).trans (List.suffix_cons a rest)
    · simp [fillLoop, h]

theorem get_estimated_book_state (book : OrderBook) (size : ℚ) :
    (get_estimated_market_buy_price book size).2
      = ⟨book.bids, (fillLoop book.asks size).2.2⟩ := by
  unfold get_estimated_market_buy_price
  dsimp only
  split
  · rfl
  · split
    · rfl
    · rfl

/-- C1: for every ask list and every order size that is positive and fully
coverable by the book's total ask quantity, the order-book walk in
`get_estimated_market_buy_price` consumes exactly the greedy fills (take
`min(level.quantity, remaining)` at `level.price` from the front) and
returns the weighted price Σ(price·quantity)/Σ(quantity) over exactly those
fills, whose total quantity equals the requested size exactly. -/
theorem C1_walker_weighted_price (book : OrderBook) (size : ℚ)
    (hpos : 0 < size)
    (hcov : size ≤ (book.asks.map OrderBookOrder.quantity).sum) :
    (get_estimated_market_buy_price book size).1
      = .ok (((greedyFills book.asks size).map fun f => f.1 * f.2).sum /
             ((greedyFills book.asks size).map fun f => f.2).sum)
    ∧ ((greedyFills book.asks size).map fun f => f.2).sum = size := by
  obtain ⟨hrem, hsum⟩ := fillLoop_success book.asks size hpos hcov
  have hg := fillLoop_fills_eq_greedy book.asks size
  rw [hg] at hsum
  have hne : ((greedyFills book.asks size).map (fun f => f.2)).sum ≠ 0 := by
    rw [hsum]; exact ne_of_gt hpos
  refine ⟨?_, hsum⟩
  unfold get_estimated_market_buy_price
  dsimp only
  rw [hrem, hg]
  simp [hne]

/-- Closed witness for C1 at the order book of the spec's round-trip
scenario: asks `[(0.5481, 822), (0.5482, 876)]`, requested size 100. -/
theorem C1_witness :
    ((0 : ℚ) < 100 ∧
      (100 : ℚ) ≤ ((({ bids := [], asks := [⟨5481/10000, 822⟩, ⟨5482/10000, 876⟩] } :
        OrderBook).asks.map OrderBookOrder.quantity).sum)) ∧
    ((get_estimated_market_buy_price
        { bids := [], asks := [⟨5481/10000, 822⟩, ⟨5482/10000, 876⟩] } 100).1
      = .ok (((greedyFills
          ({ bids := [], asks := [⟨5481/10000, 822⟩, ⟨5482/10000, 876⟩] } :
            OrderBook).asks 100).map fun f => f.1 * f.2).sum /
        ((greedyFills
          ({ bids := [], asks := [⟨5481/10000, 822⟩, ⟨5482/10000, 876⟩] } :
            OrderBook).asks 100).map fun f => f.2).sum)
    ∧ ((greedyFills
          ({ bids := [], asks := [⟨5481/10000, 822⟩, ⟨5482/10000, 876⟩] } :
            OrderBook).asks 100).map fun f => f.2).sum = 100) :=
  ⟨⟨by norm_num, by norm_num⟩,
    C1_walker_weighted_price _ 100 (by norm_num) (by norm_num)⟩

/-- C2: whenever the total ask quantity (quantities being nonnegative, as
the data model requires) is strictly below the requested size, the walk
raises `ExchangeLiquidityError` with the source's message; the error result
carries no fills. -/
theorem C2_insufficient_liquidity (book : OrderBook) (size : ℚ)
    (hq : ∀ a ∈ book.asks, 0 ≤ a.quantity)
    (h : (book.asks.map OrderBookOrder.quantity).sum < size) :
    (get_estimated_market_buy_price book size).1
      = .error (.exchangeLiquidityError
          "Insufficient liquidity in orderbook to fill order") := by
  have hrem := fillLoop_insufficient book.asks size hq h
  unfold get_estimated_market_buy_price
  simp [hrem]

/-- Closed witness for C2: the two-level book cannot cover a size of
100000. -/
theorem C2_witness :
    ((∀ a ∈ ({ bids := [], asks := [⟨5481/10000, 822⟩, ⟨5482/10000, 876⟩] } :
        OrderBook).asks, (0 : ℚ) ≤ a.quantity) ∧
      ((({ bids := [], asks := [⟨5481/10000, 822⟩, ⟨5482/10000, 876⟩] } :
        OrderBook).asks.map OrderBookOrder.quantity).sum < 100000)) ∧
    (get_estimated_market_buy_price
        { bids := [], asks := [⟨5481/10000, 822⟩, ⟨5482/10000, 876⟩] } 100000).1
      = .error (.exchangeLiquidityError
          "Insufficient liquidity in orderbook to fill order") :=
  ⟨⟨by decide, by norm_num⟩,
    C2_insufficient_liquidity _ 100000 (by decide) (by norm_num)⟩

/-- C5 counterexample: the walk consumes the order book in place, so the ask
sequence is changed after the call, refuting "the order book's ask (and bid)
sequences are unchanged".  Walking 3 units through asks
`[(1, 5), (2, 5)]` leaves the book with asks `[(2, 5)]`. -/
theorem C5_counterexample :
    ¬((get_estimated_market_buy_price ⟨[], [⟨1, 5⟩, ⟨2, 5⟩]⟩ 3).2
        = (⟨[], [⟨1, 5⟩, ⟨2, 5⟩]⟩ : OrderBook)) := by
  rw [get_estimated_book_state]
  norm_num [fillLoop]

/-- C5 amended: the walk mutates the order book it operates on, popping
consumed levels from the front of the asks; after the call the book holds a
suffix of the original asks (the unconsumed tail) and the bids are
untouched.  No private working copy is made. -/
theorem C5_walk_consumes_in_place (book : OrderBook) (size : ℚ) :
    (get_estimated_market_buy_price book size).2.bids = book.bids
    ∧ (get_estimated_market_buy_price book size).2.asks <:+ book.asks := by
  rw [get_estimated_book_state]
  exact ⟨rfl, fillLoop_suffix book.asks size⟩

/-- C10: for a non-positive order size the walk consumes no levels, the
liquidity check does not fire, and the weighted average over the empty fill
list raises `ZeroDivisionError`. -/
theorem C10_zero_size_division (book : OrderBook) (size : ℚ) (h : size ≤ 0) :
    (fillLoop book.asks size).1 = []
    ∧ (get_estimated_market_buy_price book size).1 = .error .zeroDivisionError := by
  have hfl : fillLoop book.asks size = ([], size, book.asks) := by
    cases hb : book.asks with
    | nil => simp [fillLoop]
    | cons a rest => simp [fillLoop, not_lt.mpr h]
  refine ⟨by rw [hfl], ?_⟩
  unfold get_estimated_market_buy_price
  rw [hfl]
  simp [not_lt.mpr h]

/-- Closed witness for C10 at size 0. -/
theorem C10_witness :
    ((0 : ℚ) ≤ 0) ∧
    ((fillLoop ({ bids := [], asks := [⟨1, 5⟩] } : OrderBook).asks 0).1 = []
    ∧ (get_estimated_market_buy_price { bids := [], asks := [⟨1, 5⟩] } 0).1
        = .error .zeroDivisionError) :=
  ⟨le_refl 0, C10_zero_size_division { bids := [], asks := [⟨1, 5⟩] } 0 (le_refl 0)⟩

end Scec

namespace Scec

/-! ### Pair lookup and error handling -/

/-- C6: `get_pair` returns the first pair in load order whose native symbol
equals the identifier or whose base+quote concatenation equals it exactly
(stated as agreement with `List.find?`); when no entry matches it fails with
`ExchangePairDoesNotExistError` whose message contains the requested symbol
and the venue name. -/
theorem C6_get_pair_first_match (pairs : List Pair) (name symbol : String) :
    get_pair pairs name symbol
      = (match pairs.find? (fun p => p.symbol == symbol || p.base ++ p.quote == symbol) with
         | some p => .ok p
         | none => .error (.exchangePairDoesNotExistError
             ("Trading pair \x27" ++ symbol ++ "\x27 not found on \x27" ++ name ++ "\x27")))
    ∧ strContains ("Trading pair \x27" ++ symbol ++ "\x27 not found on \x27" ++ name ++ "\x27")
        symbol = true
    ∧ strContains ("Trading pair \x27" ++ symbol ++ "\x27 not found on \x27" ++ name ++ "\x27")
        name = true := by
  refine ⟨?_, ?_, ?_⟩
  · induction pairs with
    | nil => rfl
    | cons p rest ih =>
      rcases Bool.eq_false_or_eq_true (p.symbol == symbol || p.base ++ p.quote == symbol)
        with h | h
      · simp [get_pair, List.find?, h]
      · simp only [get_pair, List.find?, h]
        exact ih
  · exact strContains_of_data _ symbol ("Trading pair \x27").data
      (("\x27 not found on \x27" ++ name ++ "\x27").data)
      (by simp [String.data_append, List.append_assoc])
  · exact strContains_of_data _ name
      (("Trading pair \x27" ++ symbol ++ "\x27 not found on \x27").data) ("\x27").data
      (by simp [String.data_append, List.append_assoc])

/-- C7 counterexample: an unmapped venue error code in a payload that does
carry a `result` key is returned as a successful response by
`handle_response`, not surfaced as a generic bad-response error, refuting
"unmapped venue errors surface as a generic bad-response error carrying the
raw payload". -/
theorem C7_counterexample :
    ¬ ∃ m r, handle_response
        (.obj [("result", .str "error"), ("error", .str "someNewVenueError")])
        = .error (.exchangeBadResponseError m r) := by
  rintro ⟨m, r, h⟩
  exact Except.noConfusion
    (show Except.ok (PyJson.obj [("result", .str "error"), ("error", .str "someNewVenueError")])
        = Except.error (PyError.exchangeBadResponseError m r) from h)

/-- C7 amended: for payloads carrying a `result` key, a mapped `error` code
raises the mapped exception of the shared taxonomy with the code as its
message; a payload with no `result` key raises a generic
`ExchangeBadResponseError` embedding the raw payload; an unmapped `error`
code in a payload carrying a `result` key is returned unchanged, not
raised. -/
theorem C7_handle_response_mapping (kvs : List (String × PyJson)) :
    ((kvs.any fun kv => kv.1 == "result") = false →
       handle_response (.obj kvs)
         = .error (.exchangeBadResponseError
             ("Kraken Futures API error: " ++ pyStr (.obj kvs)) none))
    ∧ (∀ code entry,
        (kvs.any fun kv => kv.1 == "result") = true →
        kvs.find? (fun kv => kv.1 == "error") = some ("error", PyJson.str code) →
        error_mapping.find? (fun kv => kv.1 == code) = some entry →
        handle_response (.obj kvs) = .error (entry.2 code))
    ∧ (∀ code,
        (kvs.any fun kv => kv.1 == "result") = true →
        kvs.find? (fun kv => kv.1 == "error") = some ("error", PyJson.str code) →
        error_mapping.find? (fun kv => kv.1 == code) = none →
        handle_response (.obj kvs) = .ok (.obj kvs)) := by
  refine ⟨?_, ?_, ?_⟩
  · intro h
    simp [handle_response, pyContains, h, Bind.bind, Except.bind]
  · intro code entry h1 h2 h3
    have hany : (kvs.any fun kv => kv.1 == "error") = true := by
      rw [List.any_eq_true]
      exact ⟨_, List.mem_of_find?_eq_some h2, by simp⟩
    simp [handle_response, pyContains, pyGetItem, h1, h2, h3, hany, Bind.bind, Except.bind]
  · intro code h1 h2 h3
    have hany : (kvs.any fun kv => kv.1 == "error") = true := by
      rw [List.any_eq_true]
      exact ⟨_, List.mem_of_find?_eq_some h2, by simp⟩
    simp [handle_response, pyContains, pyGetItem, h1, h2, h3, hany, Bind.bind, Except.bind]

/-- Closed witness for C7 (amended): the rate-limit code maps to
`ExchangeRateLimitExceededError`, as in the source's `error_mapping`. -/
theorem C7_witness :
    (error_mapping.find? (fun kv => kv.1 == "apiLimitExceeded")
        = some ("apiLimitExceeded", fun m => PyError.exchangeRateLimitExceededError m))
    ∧ handle_response (.obj [("result", .str "error"), ("error", .str "apiLimitExceeded")])
        = .error (.exchangeRateLimitExceededError "apiLimitExceeded") :=
  ⟨rfl, (C7_handle_response_mapping
      [("result", .str "error"), ("error", .str "apiLimitExceeded")]).2.1
    "apiLimitExceeded" ("apiLimitExceeded", fun m => PyError.exchangeRateLimitExceededError m)
    rfl rfl rfl⟩

end Scec

namespace Scec

/-- C8 counterexample: a 400 response whose body is a JSON object without a
`msg` key produces the message "Unknown error occurred.", not the raw
response body, refuting "otherwise the raw response body". -/
theorem C8_counterexample :
    ¬ C8Claim ⟨400, "\x7b\x22error\x22: \x22Internal Server Error\x22\x7d",
        some (.obj [("error", .str "Internal Server Error")])⟩ := by
  intro hcl
  obtain ⟨m, hm, hc⟩ := hcl (by decide)
  have heval : send_request ⟨400, "\x7b\x22error\x22: \x22Internal Server Error\x22\x7d",
      some (.obj [("error", .str "Internal Server Error")])⟩ none
      = .error (.exchangeBadResponseError
          "Request failed with status code 400, error message: Unknown error occurred."
          (some ⟨400, "\x7b\x22error\x22: \x22Internal Server Error\x22\x7d",
            some (.obj [("error", .str "Internal Server Error")])⟩)) := rfl
  rw [heval] at hm
  simp only [Except.error.injEq, PyError.exchangeBadResponseError.injEq] at hm
  rw [← hm.1] at hc
  exact absurd hc (by decide)

/-- C8 amended: every non-200 response raises `ExchangeBadResponseError`
carrying the original response, with a message that contains the status
code and the `msg` field of a JSON-object body when present, the raw body
when the body is not JSON, and the fixed text "Unknown error occurred."
when the JSON object has no `msg` key (instead of the raw body the claim
asserted). -/
theorem C8_bad_response_error (resp : HttpResponse) (h : resp.status_code ≠ 200) :
    ∃ m, send_request resp none = .error (.exchangeBadResponseError m (some resp))
      ∧ strContains m (toString resp.status_code) = true
      ∧ (∀ kvs v, resp.jsonBody = some (.obj kvs) →
            kvs.find? (fun kv => kv.1 == "msg") = some ("msg", v) →
            strContains m (pyStr v) = true)
      ∧ (resp.jsonBody = none → strContains m resp.content = true)
      ∧ (∀ kvs, resp.jsonBody = some (.obj kvs) →
            kvs.find? (fun kv => kv.1 == "msg") = none →
            strContains m "Unknown error occurred." = true) := by
  refine ⟨"Request failed with status code " ++ toString resp.status_code ++
      ", error message: " ++
      (match resp.jsonBody with
       | none => resp.content
       | some (.obj kvs) =>
         (match kvs.find? (fun kv => kv.1 == "msg") with
          | some kv => pyStr kv.2
          | none => "Unknown error occurred.")
       | some _ => resp.content), ?_, ?_, ?_, ?_, ?_⟩
  · unfold send_request
    rw [if_pos h]
  · exact strContains_of_data _ _ ("Request failed with status code ").data
      ((", error message: " ++
        (match resp.jsonBody with
         | none => resp.content
         | some (.obj kvs) =>
           (match kvs.find? (fun kv => kv.1 == "msg") with
            | some kv => pyStr kv.2
            | none => "Unknown error occurred.")
         | some _ => resp.content)).data)
      (by simp [String.data_append, List.append_assoc])
  · intro kvs v hj hf
    rw [hj]
    simp only [hf]
    exact strContains_of_data _ _
      (("Request failed with status code " ++ toString resp.status_code ++
        ", error message: ").data) []
      (by simp [String.data_append, List.append_assoc])
  · intro hj
    rw [hj]
    exact strContains_of_data _ _
      (("Request failed with status code " ++ toString resp.status_code ++
        ", error message: ").data) []
      (by simp [String.data_append, List.append_assoc])
  · intro kvs hj hf
    rw [hj]
    simp only [hf]
    exact strContains_of_data _ _
      (("Request failed with status code " ++ toString resp.status_code ++
        ", error message: ").data) []
      (by simp [String.data_append, List.append_assoc])

/-- Closed witness for C8 (amended) at a 400 response with a non-JSON
body. -/
theorem C8_witness :
    ((400 : Nat) ≠ 200) ∧
    ∃ m, send_request ⟨400, "Bad Request", none⟩ none
        = .error (.exchangeBadResponseError m (some ⟨400, "Bad Request", none⟩))
      ∧ strContains m (toString (⟨400, "Bad Request", none⟩ : HttpResponse).status_code) = true
      ∧ (∀ kvs v, (⟨400, "Bad Request", none⟩ : HttpResponse).jsonBody = some (.obj kvs) →
            kvs.find? (fun kv => kv.1 == "msg") = some ("msg", v) →
            strContains m (pyStr v) = true)
      ∧ ((⟨400, "Bad Request", none⟩ : HttpResponse).jsonBody = none →
            strContains m (⟨400, "Bad Request", none⟩ : HttpResponse).content = true)
      ∧ (∀ kvs, (⟨400, "Bad Request", none⟩ : HttpResponse).jsonBody = some (.obj kvs) →
            kvs.find? (fun kv => kv.1 == "msg") = none →
            strContains m "Unknown error occurred." = true) :=
  ⟨by decide, C8_bad_response_error ⟨400, "Bad Request", none⟩ (by decide)⟩

end Scec

namespace Scec

/-! ### Heap model lemmas -/

theorem mem_of_mem_set {α : Type} {l : List α} {i : Nat} {v x : α}
    (h : x ∈ l.set i v) : x ∈ l ∨ x = v := by
  induction l generalizing i with
  | nil => simp at h
  | cons a t ih =>
    cases i with
    | zero =>
      rcases List.mem_cons.mp h with h1 | h1
      · exact Or.inr h1
      · exact Or.inl (List.mem_cons_of_mem a h1)
    | succ i =>
      rcases List.mem_cons.mp h with h1 | h1
      · exact Or.inl (h1 ▸ List.mem_cons_self a t)
      · rcases ih h1 with h2 | h2
        · exact Or.inl (List.mem_cons_of_mem a h2)
        · exact Or.inr h2

theorem cons_set_comm {α : Type} (t : List α) (i : Nat) (c a : α)
    (hi : i < t.length) : (a :: t.set i c).Perm (c :: t.set i a) := by
  induction t generalizing i with
  | nil => simp at hi
  | cons b t' ih =>
    cases i with
    | zero => simpa using List.Perm.swap c a t'
    | succ i =>
      have h' : i < t'.length := by simpa using hi
      show (a :: b :: t'.set i c).Perm (c :: b :: t'.set i a)
      exact ((List.Perm.swap b a _).trans ((ih i h').cons b)).trans (List.Perm.swap c b _)

theorem set_set_perm {α : Type} (l : List α) (j i : Nat) (x a : α)
    (hj : j < i) (hi : i < l.length) (hx : l[j]? = some x) :
    ((l.set i x).set j a).Perm (l.set i a) := by
  induction l generalizing i j with
  | nil => simp at hi
  | cons c t ih =>
    cases i with
    | zero => omega
    | succ i' =>
      cases j with
      | zero =>
        have hxc : x = c := by simpa using hx.symm
        subst hxc
        have h' : i' < t.length := by simpa using hi
        simpa using cons_set_comm t i' x a h'
      | succ j' =>
        have h' : i' < t.length := by simpa using hi
        have hx' : t[j']? = some x := by simpa using hx
        simpa using List.Perm.cons c (ih j' i' (by omega) h' hx')

theorem tupleLt_self (a : HeapItem) : tupleLt a a = .ok false := by
  simp [tupleLt]

theorem tupleLt_of_ne (a b : HeapItem) (h : a.1 ≠ b.1) :
    tupleLt a b = .ok (decide (a.1 < b.1)) := by
  simp [tupleLt, h]

/-- Behavior of the sift-towards-the-root loop when the new item does not
beat the current root: the loop succeeds, permutes the working list into
`heap.set pos newitem`, and leaves the root untouched. -/
theorem siftdownLoop_stay (fuel : Nat) :
    ∀ (pos : Nat) (heap : List HeapItem) (newitem r : HeapItem),
    pos ≤ fuel → pos < heap.length → heap[0]? = some r →
    (pos = 0 → r = newitem) →
    r.1 ≤ newitem.1 →
    (∀ x ∈ heap, r.1 ≤ x.1) →
    (∀ x ∈ heap, x = newitem ∨ x.1 ≠ newitem.1) →
    ∃ h2, siftdownLoop fuel heap 0 pos newitem = .ok h2
      ∧ h2.Perm (heap.set pos newitem)
      ∧ h2[0]? = some r := by
  induction fuel with
  | zero =>
    intro pos heap newitem r hfuel hpos hr h0 hA hmin hpr
    have hp0 : pos = 0 := by omega
    subst hp0
    refine ⟨heap.set 0 newitem, by simp [siftdownLoop], List.Perm.refl _, ?_⟩
    rw [List.getElem?_set_self hpos, h0 rfl]
  | succ fuel ih =>
    intro pos heap newitem r hfuel hpos hr h0 hA hmin hpr
    by_cases hp0 : 0 < pos
    · have hpar : (pos - 1) / 2 < heap.length := by omega
      have hparget : heap[(pos - 1) / 2]? = some heap[(pos - 1) / 2] :=
        List.getElem?_eq_getElem hpar
      have hparmem : heap[(pos - 1) / 2] ∈ heap := List.getElem_mem hpar
      rcases hpr _ hparmem with hpe | hpe
      · -- the parent cell holds the new item itself: comparison yields `false`
        refine ⟨heap.set pos newitem, ?_, List.Perm.refl _, ?_⟩
        · simp only [siftdownLoop, if_pos hp0, hparget, hpe, tupleLt_self]
        · rw [List.getElem?_set_ne (by omega)]
          exact hr
      · have hcmp : tupleLt newitem heap[(pos - 1) / 2]
            = .ok (decide (newitem.1 < heap[(pos - 1) / 2].1)) :=
          tupleLt_of_ne _ _ (fun hh => hpe hh.symm)
        by_cases hlt : newitem.1 < heap[(pos - 1) / 2].1
        · -- move the parent down and recurse at the parent position
          have hparne0 : (pos - 1) / 2 ≠ 0 := by
            intro hzero
            have h01 : heap[(pos - 1) / 2]? = some r := by rw [hzero]; exact hr
            have hpr2 : heap[(pos - 1) / 2] = r := by
              rw [hparget] at h01
              exact Option.some.inj h01
            rw [hpr2] at hlt
            exact absurd hA (not_le.mpr hlt)
          have hres := ih ((pos - 1) / 2) (heap.set pos heap[(pos - 1) / 2]) newitem r
            (by omega) (by simp [List.length_set]; omega)
            (by rw [List.getElem?_set_ne (by omega)]; exact hr)
            (fun hzero => absurd hzero hparne0) hA
            (by
              intro x hx
              rcases mem_of_mem_set hx with h1 | h1
              · exact hmin x h1
              · exact h1 ▸ hmin _ hparmem)
            (by
              intro x hx
              rcases mem_of_mem_set hx with h1 | h1
              · exact hpr x h1
              · exact h1 ▸ hpr _ hparmem)
          obtain ⟨h2, heq, hperm, hroot⟩ := hres
          refine ⟨h2, ?_, ?_, hroot⟩
          · simp only [siftdownLoop, if_pos hp0, hparget, hcmp, if_pos hlt, decide_eq_true hlt]
            exact heq
          · exact hperm.trans (set_set_perm heap ((pos - 1) / 2) pos _ newitem
              (by omega) hpos hparget)
        · -- the new item stays here: write it and stop
          refine ⟨heap.set pos newitem, ?_, List.Perm.refl _, ?_⟩
          · simp only [siftdownLoop, if_pos hp0, hparget, hcmp, decide_eq_false hlt]
          · rw [List.getElem?_set_ne (by omega)]
            exact hr
    · have hp0' : pos = 0 := by omega
      subst hp0'
      refine ⟨heap.set 0 newitem, by simp [siftdownLoop], List.Perm.refl _, ?_⟩
      rw [List.getElem?_set_self hpos, h0 rfl]

end Scec

namespace Scec

/-- Behavior of the sift-towards-the-root loop when the new item has a
strictly smaller price than everything else in the working list: the loop
succeeds, permutes the working list into `heap.set pos newitem`, and the new
item ends at the root. -/
theorem siftdownLoop_newmin (fuel : Nat) :
    ∀ (pos : Nat) (heap : List HeapItem) (newitem : HeapItem),
    pos ≤ fuel → pos < heap.length →
    (∀ j (hj : j < heap.length), j ≠ pos → heap[j] ≠ newitem) →
    (∀ x ∈ heap, x = newitem ∨ newitem.1 < x.1) →
    ∃ h2, siftdownLoop fuel heap 0 pos newitem = .ok h2
      ∧ h2.Perm (heap.set pos newitem)
      ∧ h2[0]? = some newitem := by
  induction fuel with
  | zero =>
    intro pos heap newitem hfuel hpos hOnly hB
    have hp0 : pos = 0 := by omega
    subst hp0
    exact ⟨heap.set 0 newitem, by simp [siftdownLoop], List.Perm.refl _,
      List.getElem?_set_self hpos⟩
  | succ fuel ih =>
    intro pos heap newitem hfuel hpos hOnly hB
    by_cases hp0 : 0 < pos
    · have hpar : (pos - 1) / 2 < heap.length := by omega
      have hparget : heap[(pos - 1) / 2]? = some heap[(pos - 1) / 2] :=
        List.getElem?_eq_getElem hpar
      have hparmem : heap[(pos - 1) / 2] ∈ heap := List.getElem_mem hpar
      have hparne : heap[(pos - 1) / 2] ≠ newitem := hOnly _ hpar (by omega)
      have hlt : newitem.1 < heap[(pos - 1) / 2].1 := by
        rcases hB _ hparmem with h1 | h1
        · exact absurd h1 hparne
        · exact h1
      have hcmp : tupleLt newitem heap[(pos - 1) / 2]
          = .ok (decide (newitem.1 < heap[(pos - 1) / 2].1)) :=
        tupleLt_of_ne _ _ (ne_of_lt hlt)
      have hres := ih ((pos - 1) / 2) (heap.set pos heap[(pos - 1) / 2]) newitem
        (by omega) (by simp [List.length_set]; omega)
        (by
          intro j hj hjne
          have hj' : j < heap.length := by simpa using hj
          by_cases hjp : j = pos
          · subst hjp
            rw [List.getElem_set_self]
            exact hparne
          · rw [List.getElem_set_ne (fun hh => hjp hh.symm)]
            exact hOnly j hj' hjp)
        (by
          intro x hx
          rcases mem_of_mem_set hx with h1 | h1
          · exact hB x h1
          · exact h1 ▸ hB _ hparmem)
      obtain ⟨h2, heq, hperm, hroot⟩ := hres
      refine ⟨h2, ?_, ?_, hroot⟩
      · simp only [siftdownLoop, if_pos hp0, hparget, hcmp, decide_eq_true hlt]
        exact heq
      · exact hperm.trans (set_set_perm heap ((pos - 1) / 2) pos _ newitem
          (by omega) hpos hparget)
    · have hp0' : pos = 0 := by omega
      subst hp0'
      exact ⟨heap.set 0 newitem, by simp [siftdownLoop], List.Perm.refl _,
        List.getElem?_set_self hpos⟩

/-- CPython `heappush` on a heap whose root is a minimum and whose elements
all have prices different from the pushed item: the push succeeds, the
result is a permutation of `heap ++ [item]`, and its root is again a
minimum. -/
theorem heappush_spec (heap : List HeapItem) (item : HeapItem)
    (hprice : ∀ x ∈ heap, x.1 ≠ item.1)
    (hroot : ∀ r, heap[0]? = some r → ∀ x ∈ heap, r.1 ≤ x.1) :
    ∃ h2 r2, heappush heap item = .ok h2
      ∧ h2.Perm (heap ++ [item])
      ∧ h2[0]? = some r2
      ∧ ∀ x ∈ h2, r2.1 ≤ x.1 := by
  cases heap with
  | nil =>
    refine ⟨[item], item, ?_, by simp, rfl, ?_⟩
    · simp [heappush, siftdown, siftdownLoop]
    · intro x hx
      rw [List.mem_singleton.mp hx]
  | cons a t =>
    have hron : (a :: t)[0]? = some a := by simp
    have hmin : ∀ x ∈ a :: t, a.1 ≤ x.1 := hroot a hron
    have hlen : (a :: t).length < ((a :: t) ++ [item]).length := by simp
    have happ0 : ((a :: t) ++ [item])[0]? = some a := by simp
    have hsetapp : ((a :: t) ++ [item]).set (a :: t).length item = (a :: t) ++ [item] := by
      rw [List.set_append]
      simp
    rcases le_or_lt a.1 item.1 with hord | hord
    · obtain ⟨h2, heq, hperm, hr2⟩ := siftdownLoop_stay (a :: t).length (a :: t).length
        ((a :: t) ++ [item]) item a (le_refl _) hlen happ0
        (by intro h0; exact absurd h0 (by simp))
        hord
        (by
          intro x hx
          rcases List.mem_append.mp hx with h1 | h1
          · exact hmin x h1
          · rw [List.mem_singleton.mp h1]; exact hord)
        (by
          intro x hx
          rcases List.mem_append.mp hx with h1 | h1
          · exact Or.inr (hprice x h1)
          · exact Or.inl (List.mem_singleton.mp h1))
      refine ⟨h2, a, heq, ?_, hr2, ?_⟩
      · rw [← hsetapp]; exact hperm
      · intro x hx
        have hx2 : x ∈ (a :: t) ++ [item] := by
          rw [← hsetapp]
          exact (hperm.mem_iff).mp hx
        rcases List.mem_append.mp hx2 with h1 | h1
        · exact hmin x h1
        · rw [List.mem_singleton.mp h1]; exact hord
    · obtain ⟨h2, heq, hperm, hr2⟩ := siftdownLoop_newmin (a :: t).length (a :: t).length
        ((a :: t) ++ [item]) item (le_refl _) hlen
        (by
          intro j hj hjne
          have hj' : j < (a :: t).length := by
            simp only [List.length_append, List.length_cons, List.length_nil] at hj hjne ⊢
            omega
          rw [List.getElem_append_left hj']
          intro hcontra
          exact hprice _ (List.getElem_mem hj') (by rw [hcontra]))
        (by
          intro x hx
          rcases List.mem_append.mp hx with h1 | h1
          · exact Or.inr (lt_of_lt_of_le hord (hmin x h1))
          · exact Or.inl (List.mem_singleton.mp h1))
      refine ⟨h2, item, heq, ?_, hr2, ?_⟩
      · rw [← hsetapp]; exact hperm
      · intro x hx
        have hx2 : x ∈ (a :: t) ++ [item] := by
          rw [← hsetapp]
          exact (hperm.mem_iff).mp hx
        rcases List.mem_append.mp hx2 with h1 | h1
        · exact le_of_lt (lt_of_lt_of_le hord (hmin x h1))
        · rw [List.mem_singleton.mp h1]

end Scec

namespace Scec

/-- Folding `heappush` over items with pairwise-distinct prices (and prices
disjoint from the accumulator) succeeds, accumulates exactly the pushed
items, and keeps a minimum at the root. -/
theorem pushAll_spec (todo : List HeapItem) :
    ∀ (heap : List HeapItem),
    (∀ x ∈ heap, ∀ y ∈ todo, x.1 ≠ y.1) →
    todo.Pairwise (fun a b => a.1 ≠ b.1) →
    (∀ r, heap[0]? = some r → ∀ x ∈ heap, r.1 ≤ x.1) →
    ∃ h2, todo.foldlM heappush heap = .ok h2
      ∧ h2.Perm (heap ++ todo)
      ∧ ∀ r, h2[0]? = some r → ∀ x ∈ h2, r.1 ≤ x.1 := by
  induction todo with
  | nil =>
    intro heap hdisj htodo hroot
    exact ⟨heap, rfl, by simp, hroot⟩
  | cons item todo' ih =>
    intro heap hdisj htodo hroot
    obtain ⟨h1, r1, heq1, hperm1, hr1, hmin1⟩ := heappush_spec heap item
      (fun x hx => hdisj x hx item (List.mem_cons_self _ _)) hroot
    have htodo' := (List.pairwise_cons.mp htodo).2
    have hhead := (List.pairwise_cons.mp htodo).1
    obtain ⟨h2, heq2, hperm2, hmin2⟩ := ih h1
      (by
        intro x hx y hy
        rcases List.mem_append.mp (hperm1.mem_iff.mp hx) with h3 | h3
        · exact hdisj x h3 y (List.mem_cons_of_mem _ hy)
        · rw [List.mem_singleton.mp h3]
          exact hhead y hy)
      htodo'
      (by
        intro r hr x hx
        rw [hr1] at hr
        rw [← Option.some.inj hr]
        exact hmin1 x hx)
    refine ⟨h2, ?_, ?_, hmin2⟩
    · rw [List.foldlM_cons, heq1]
      simpa using heq2
    · refine hperm2.trans ?_
      have : (heap ++ [item]) ++ todo' = heap ++ (item :: todo') := by
        rw [List.append_assoc]
        rfl
      rw [← this]
      exact hperm1.append_right todo'

/-- The sift-towards-the-root loop never raises when all values in play are
drawn from a price-keyed population (equal prices imply equal items, as is
the case after pushing pairwise-distinct prices). -/
theorem siftdownLoop_ok (S : List HeapItem)
    (hkey : ∀ x ∈ S, ∀ y ∈ S, x.1 = y.1 → x = y) (fuel : Nat) :
    ∀ (pos : Nat) (heap : List HeapItem) (newitem : HeapItem),
    pos ≤ fuel → pos < heap.length →
    (∀ x ∈ heap, x ∈ S) → newitem ∈ S →
    ∃ h2, siftdownLoop fuel heap 0 pos newitem = .ok h2
      ∧ h2.length = heap.length ∧ ∀ x ∈ h2, x ∈ S := by
  induction fuel with
  | zero =>
    intro pos heap newitem hfuel hpos hsub hni
    have hp0 : pos = 0 := by omega
    subst hp0
    refine ⟨heap.set 0 newitem, by simp [siftdownLoop], by simp, ?_⟩
    intro x hx
    rcases mem_of_mem_set hx with h1 | h1
    · exact hsub x h1
    · exact h1 ▸ hni
  | succ fuel ih =>
    intro pos heap newitem hfuel hpos hsub hni
    by_cases hp0 : 0 < pos
    · have hpar : (pos - 1) / 2 < heap.length := by omega
      have hparget : heap[(pos - 1) / 2]? = some heap[(pos - 1) / 2] :=
        List.getElem?_eq_getElem hpar
      have hparS : heap[(pos - 1) / 2] ∈ S := hsub _ (List.getElem_mem hpar)
      have hcmp : ∃ b, tupleLt newitem heap[(pos - 1) / 2] = .ok b := by
        by_cases hpeq : newitem.1 = heap[(pos - 1) / 2].1
        · have : newitem = heap[(pos - 1) / 2] := hkey _ hni _ hparS hpeq
          exact ⟨false, by rw [this]; exact tupleLt_self _⟩
        · exact ⟨_, tupleLt_of_ne _ _ hpeq⟩
      obtain ⟨b, hb⟩ := hcmp
      cases b with
      | true =>
        obtain ⟨h2, heq, hlen, hsub2⟩ := ih ((pos - 1) / 2)
          (heap.set pos heap[(pos - 1) / 2]) newitem
          (by omega) (by simp [List.length_set]; omega)
          (by
            intro x hx
            rcases mem_of_mem_set hx with h1 | h1
            · exact hsub x h1
            · exact h1 ▸ hparS)
          hni
        refine ⟨h2, ?_, ?_, hsub2⟩
        · simp only [siftdownLoop, if_pos hp0, hparget, hb]
          exact heq
        · rw [hlen]; simp
      | false =>
        refine ⟨heap.set pos newitem, ?_, by simp, ?_⟩
        · simp only [siftdownLoop, if_pos hp0, hparget, hb]
        · intro x hx
          rcases mem_of_mem_set hx with h1 | h1
          · exact hsub x h1
          · exact h1 ▸ hni
    · have hp0' : pos = 0 := by omega
      subst hp0'
      refine ⟨heap.set 0 newitem, by simp [siftdownLoop], by simp, ?_⟩
      intro x hx
      rcases mem_of_mem_set hx with h1 | h1
      · exact hsub x h1
      · exact h1 ▸ hni

/-- The sift-towards-the-leaves loop never raises when all values in play
are drawn from a price-keyed population. -/
theorem siftupLoop_ok (S : List HeapItem)
    (hkey : ∀ x ∈ S, ∀ y ∈ S, x.1 = y.1 → x = y) (fuel : Nat) :
    ∀ (pos : Nat) (heap : List HeapItem) (newitem : HeapItem),
    heap.length - pos ≤ fuel → pos < heap.length →
    (∀ x ∈ heap, x ∈ S) → newitem ∈ S →
    ∃ h2, siftupLoop fuel heap 0 pos newitem = .ok h2 := by
  induction fuel with
  | zero =>
    intro pos heap newitem hfuel hpos hsub hni
    have hchild : ¬(2 * pos + 1 < heap.length) := by omega
    obtain ⟨h2, heq, -, -⟩ := siftdownLoop_ok S hkey pos pos (heap.set pos newitem) newitem
      (le_refl _) (by simpa using hpos)
      (by
        intro x hx
        rcases mem_of_mem_set hx with h1 | h1
        · exact hsub x h1
        · exact h1 ▸ hni)
      hni
    exact ⟨h2, by simp only [siftupLoop, if_neg hchild]; exact heq⟩
  | succ fuel ih =>
    intro pos heap newitem hfuel hpos hsub hni
    by_cases hchild : 2 * pos + 1 < heap.length
    · have hstep : ∃ cp, (if 2 * pos + 1 + 1 < heap.length then
          match heap[2 * pos + 1]?, heap[2 * pos + 1 + 1]? with
          | some c, some r =>
            match tupleLt c r with
            | .error e => .error e
            | .ok b => .ok (if b then 2 * pos + 1 else 2 * pos + 1 + 1)
          | _, _ => Except.error .indexError
          else .ok (2 * pos + 1)) = Except.ok cp
          ∧ cp < heap.length ∧ pos < cp := by
        by_cases hr : 2 * pos + 1 + 1 < heap.length
        · have hc1 : heap[2 * pos + 1]? = some heap[2 * pos + 1] :=
            List.getElem?_eq_getElem hchild
          have hc2 : heap[2 * pos + 1 + 1]? = some heap[2 * pos + 1 + 1] :=
            List.getElem?_eq_getElem hr
          have hcS : heap[2 * pos + 1] ∈ S := hsub _ (List.getElem_mem hchild)
          have hrS : heap[2 * pos + 1 + 1] ∈ S := hsub _ (List.getElem_mem hr)
          have hcmp : ∃ b, tupleLt heap[2 * pos + 1] heap[2 * pos + 1 + 1] = .ok b := by
            by_cases hpeq : heap[2 * pos + 1].1 = heap[2 * pos + 1 + 1].1
            · have heqel : heap[2 * pos + 1] = heap[2 * pos + 1 + 1] :=
                hkey _ hcS _ hrS hpeq
              exact ⟨false, by rw [heqel]; exact tupleLt_self _⟩
            · exact ⟨_, tupleLt_of_ne _ _ hpeq⟩
          obtain ⟨b, hb⟩ := hcmp
          refine ⟨if b then 2 * pos + 1 else 2 * pos + 1 + 1, ?_, ?_, ?_⟩
          · rw [if_pos hr, hc1, hc2]
            dsimp only
            rw [hb]
          · cases b <;> simp [hchild, hr]
          · cases b <;> simp <;> omega
        · exact ⟨2 * pos + 1, by rw [if_neg hr], hchild, by omega⟩
      obtain ⟨cp, hcp, hcplt, hposcp⟩ := hstep
      have hcpget : heap[cp]? = some heap[cp] := List.getElem?_eq_getElem hcplt
      obtain ⟨h2, heq⟩ := ih cp (heap.set pos heap[cp]) newitem
        (by simp only [List.length_set]; omega)
        (by simpa using hcplt)
        (by
          intro x hx
          rcases mem_of_mem_set hx with h1 | h1
          · exact hsub x h1
          · exact h1 ▸ hsub _ (List.getElem_mem hcplt))
        hni
      refine ⟨h2, ?_⟩
      simp only [siftupLoop, if_pos hchild, hcp, hcpget]
      exact heq
    · obtain ⟨h2, heq, -, -⟩ := siftdownLoop_ok S hkey pos pos (heap.set pos newitem) newitem
        (le_refl _) (by simpa using hpos)
        (by
          intro x hx
          rcases mem_of_mem_set hx with h1 | h1
          · exact hsub x h1
          · exact h1 ▸ hni)
        hni
      exact ⟨h2, by simp only [siftupLoop, if_neg hchild]; exact heq⟩

end Scec

namespace Scec

theorem except_bind_ok {α β : Type} (a : α) (f : α → Except PyError β) :
    (Except.ok a >>= f) = f a := rfl

/-- CPython `heappop` on a nonempty heap drawn from a price-keyed population
returns the root. -/
theorem heappop_spec (heap : List HeapItem) (m : HeapItem) (S : List HeapItem)
    (hkey : ∀ x ∈ S, ∀ y ∈ S, x.1 = y.1 → x = y)
    (hm : heap[0]? = some m)
    (hsub : ∀ x ∈ heap, x ∈ S) :
    ∃ rest2, heappop heap = .ok (m, rest2) := by
  cases heap with
  | nil => simp at hm
  | cons a t =>
    have ham : a = m := by simpa using hm
    subst ham
    cases t with
    | nil => exact ⟨[], rfl⟩
    | cons b t' =>
      have hne : (a :: b :: t') ≠ [] := by simp
      obtain ⟨last, hlast⟩ := Option.isSome_iff_exists.mp (List.getLast?_isSome.mpr hne)
      have hlastmem : last ∈ a :: b :: t' := by
        obtain ⟨ys, hys⟩ := List.getLast?_eq_some_iff.mp hlast
        rw [hys]
        simp
      obtain ⟨h2, hup⟩ := siftupLoop_ok S hkey (last :: (b :: t').dropLast).length 0
        (last :: (b :: t').dropLast) last (le_refl _) (by simp)
        (by
          intro x hx
          rcases List.mem_cons.mp hx with h1 | h1
          · exact h1 ▸ hsub last hlastmem
          · have hx2 : x ∈ b :: t' := (List.dropLast_sublist (b :: t')).mem h1
            exact hsub x (List.mem_cons_of_mem a hx2))
        (hsub last hlastmem)
      refine ⟨h2, ?_⟩
      show heappop (a :: b :: t') = Except.ok (a, h2)
      rw [heappop, hlast]
      rw [show (a :: b :: t').dropLast = a :: (b :: t').dropLast from List.dropLast_cons₂]
      dsimp only
      rw [show ((a :: (b :: t').dropLast).set 0 last) = last :: (b :: t').dropLast from rfl]
      rw [show siftup (last :: (b :: t').dropLast) 0 0 last
          = siftupLoop (last :: (b :: t').dropLast).length
              (last :: (b :: t').dropLast) 0 0 last from rfl]
      rw [hup]

/-- Elementwise-`ok` maps lift to `mapM` in the `Except` monad. -/
theorem mapM_eq_ok {α β : Type} (f : α → Except PyError β) :
    ∀ (l : List α) (ps : List β), l.map f = ps.map Except.ok →
    l.mapM f = Except.ok ps := by
  intro l
  induction l with
  | nil =>
    intro ps h
    have hps : ps = [] := by
      cases ps with
      | nil => rfl
      | cons p ps' => simp at h
    subst hps
    rfl
  | cons a l' ih =>
    intro ps h
    cases ps with
    | nil => simp at h
    | cons p ps' =>
      simp only [List.map_cons, List.cons.injEq] at h
      rw [List.mapM_cons, h.1, ih ps' h.2]
      rfl

/-- Equal prices in a zip of `Nodup` prices with exchanges force equal
entries. -/
theorem zip_priceKeyed (prices : List ℚ) (exchanges : List Exchange)
    (hlen : prices.length = exchanges.length) (hnd : prices.Nodup) :
    ∀ x ∈ prices.zip exchanges, ∀ y ∈ prices.zip exchanges, x.1 = y.1 → x = y := by
  intro x hx y hy hxy
  obtain ⟨i, hi, hxi⟩ := List.mem_iff_getElem.mp hx
  obtain ⟨j, hj, hyj⟩ := List.mem_iff_getElem.mp hy
  have hil : i < prices.length := by
    rw [List.length_zip] at hi
    omega
  have hjl : j < prices.length := by
    rw [List.length_zip] at hj
    omega
  have hie : i < exchanges.length := by omega
  have hje : j < exchanges.length := by omega
  have hxe : x = (prices[i], exchanges[i]) := by
    rw [← hxi]
    exact List.getElem_zip
  have hye : y = (prices[j], exchanges[j]) := by
    rw [← hyj]
    exact List.getElem_zip
  have hpij : prices[i] = prices[j] := by
    rw [hxe, hye] at hxy
    exact hxy
  have hij : i = j := (List.Nodup.getElem_inj_iff hnd).mp hpij
  subst hij
  rw [hxe, hye]

end Scec

namespace Scec

theorem except_bind_error {α β : Type} (e : PyError) (f : α → Except PyError β) :
    (Except.error e >>= f) = (Except.error e : Except PyError β) := rfl

/-- C3: over a non-empty exchange list whose per-exchange estimates all
succeed (the successful prices are given elementwise by `prices`) and are
pairwise distinct, `get_lowest_market_buy_price` returns the strictly
minimal price among all exchanges' individually-computed estimates together
with the exchange that produced it. -/
theorem C3_lowest_price (exchanges : List Exchange) (prices : List ℚ) (amount : ℚ)
    (hne : exchanges ≠ [])
    (hps : exchanges.map (fun ex => (get_estimated_market_buy_price ex.book amount).1)
           = prices.map Except.ok)
    (hdist : prices.Nodup) :
    ∃ p ex, get_lowest_market_buy_price exchanges amount = .ok (p, ex)
      ∧ ex ∈ exchanges
      ∧ (get_estimated_market_buy_price ex.book amount).1 = .ok p
      ∧ ∀ ex2 ∈ exchanges, ∀ q : ℚ,
          (get_estimated_market_buy_price ex2.book amount).1 = .ok q →
          ex2 ≠ ex → p < q := by
  have hlen : prices.length = exchanges.length := by
    have h1 := congrArg List.length hps
    simpa using h1.symm
  have hmapm := mapM_eq_ok (fun ex => (get_estimated_market_buy_price ex.book amount).1)
    exchanges prices hps
  have hkey := zip_priceKeyed prices exchanges hlen hdist
  have htodo : (prices.zip exchanges).Pairwise (fun a b => a.1 ≠ b.1) := by
    have hmfst : (prices.zip exchanges).map Prod.fst = prices :=
      List.map_fst_zip prices exchanges (le_of_eq hlen)
    have h2 := hdist
    rw [← hmfst] at h2
    exact List.pairwise_map.mp h2
  obtain ⟨h2, heq, hperm, hmin⟩ := pushAll_spec (prices.zip exchanges) []
    (by intro x hx; simp at hx) htodo (by intro r hr; simp at hr)
  have hpermz : h2.Perm (prices.zip exchanges) := by simpa using hperm
  have hlen2 : 0 < h2.length := by
    rw [hpermz.length_eq, List.length_zip]
    cases exchanges with
    | nil => exact absurd rfl hne
    | cons e es =>
      cases prices with
      | nil => simp at hlen
      | cons p ps => simp
  obtain ⟨hd, tl, rfl⟩ : ∃ hd tl, h2 = hd :: tl := by
    cases h2 with
    | nil => simp at hlen2
    | cons hd tl => exact ⟨hd, tl, rfl⟩
  have hmemz : hd ∈ prices.zip exchanges := hpermz.mem_iff.mp (List.mem_cons_self hd tl)
  obtain ⟨i, hi, hieq⟩ := List.mem_iff_getElem.mp hmemz
  have hil : i < prices.length := by
    rw [List.length_zip] at hi
    omega
  have hie : i < exchanges.length := by omega
  have hroot_eq : hd = (prices[i], exchanges[i]) := by
    rw [← hieq]
    exact List.getElem_zip
  have hest : ∀ j (hj : j < exchanges.length),
      (get_estimated_market_buy_price exchanges[j].book amount).1
        = Except.ok prices[j] := by
    intro j hj
    have hj' : j < prices.length := by omega
    have h1 := congrArg (fun l => l[j]?) hps
    simp only [List.getElem?_map] at h1
    rw [List.getElem?_eq_getElem hj, List.getElem?_eq_getElem hj'] at h1
    simpa using h1
  obtain ⟨rest2, hpop⟩ := heappop_spec (hd :: tl) hd (prices.zip exchanges) hkey
    (by simp) (fun x hx => hpermz.mem_iff.mp hx)
  refine ⟨prices[i], exchanges[i], ?_, List.getElem_mem hie, hest i hie, ?_⟩
  · simp only [get_lowest_market_buy_price, hmapm, except_bind_ok, heq, hpop]
    rw [hroot_eq]
  · intro ex2 hex2 q hq hne2
    obtain ⟨j, hj, hjeq⟩ := List.mem_iff_getElem.mp hex2
    have hjl : j < prices.length := by omega
    have hthis := hest j hj
    rw [hjeq] at hthis
    rw [hthis] at hq
    have hq2 : prices[j] = q := by
      injection hq
    have hjzlen : j < (prices.zip exchanges).length := by
      rw [List.length_zip]
      omega
    have hjz : (prices[j], exchanges[j]) ∈ prices.zip exchanges := by
      have hzj : (prices.zip exchanges)[j] = (prices[j], exchanges[j]) := List.getElem_zip
      rw [← hzj]
      exact List.getElem_mem hjzlen
    have hjh2 : (prices[j], exchanges[j]) ∈ hd :: tl := hpermz.mem_iff.mpr hjz
    have hle : hd.1 ≤ prices[j] := hmin hd (by simp) _ hjh2
    have hne3 : hd.1 ≠ prices[j] := by
      intro heq3
      have hform : hd = (prices[j], exchanges[j]) := hkey hd hmemz _ hjz heq3
      rw [hroot_eq] at hform
      have hsnd : exchanges[i] = exchanges[j] := congrArg Prod.snd hform
      rw [hjeq] at hsnd
      exact hne2 hsnd.symm
    have hfst : hd.1 = prices[i] := by rw [hroot_eq]
    rw [← hq2, ← hfst]
    exact lt_of_le_of_ne hle hne3

/-- C4 counterexample: with an empty exchange set the aggregation fails with
a bare `RuntimeError`, which is not an `ExchangeException` of the shared
taxonomy of `exceptions.py`, refuting "fails with the NoExchangesAvailable
error of the shared error taxonomy". -/
theorem C4_counterexample :
    ¬ ∃ e, get_lowest_market_buy_price [] 100 = .error e
        ∧ isExchangeException e = true := by
  rintro ⟨e, he, hexc⟩
  have heval : get_lowest_market_buy_price [] 100
      = .error (.runtimeError "No exchanges available to get lowest market price") := rfl
  rw [heval] at he
  rw [← Except.error.inj he] at hexc
  simp [isExchangeException] at hexc

/-- C4 amended: with an empty exchange set `get_lowest_market_buy_price`
fails with a builtin `RuntimeError` carrying the message "No exchanges
available to get lowest market price"; this error is not part of the shared
`ExchangeException` taxonomy. -/
theorem C4_empty_exchanges_runtime_error (amount : ℚ) :
    get_lowest_market_buy_price [] amount
      = .error (.runtimeError "No exchanges available to get lowest market price")
    ∧ isExchangeException
        (.runtimeError "No exchanges available to get lowest market price") = false :=
  ⟨rfl, rfl⟩

/-- C9: evaluation at the failing input.  Two distinct exchange instances
whose order books produce the same estimated price (11/20 for a size of
100) make `heappush` compare the `(price, exchange)` tuples; equal prices
fall through to the exchange instances, which define no ordering, so the
aggregation raises `TypeError` instead of completing. -/
theorem C9_tie_raises_type_error :
    get_lowest_market_buy_price
      [⟨0, ⟨[], [⟨3, 200⟩]⟩⟩, ⟨1, ⟨[], [⟨3, 200⟩]⟩⟩] 100
      = .error .typeError := by
  have hest : (get_estimated_market_buy_price (⟨[], [⟨3, 200⟩]⟩ : OrderBook) 100).1
      = Except.ok (3 : ℚ) := by
    norm_num [get_estimated_market_buy_price, fillLoop]
  have hmapm : [(⟨0, ⟨[], [⟨3, 200⟩]⟩⟩ : Exchange), ⟨1, ⟨[], [⟨3, 200⟩]⟩⟩].mapM
      (fun ex => (get_estimated_market_buy_price ex.book 100).1)
      = Except.ok [(3 : ℚ), 3] := by
    rw [List.mapM_cons, List.mapM_cons, List.mapM_nil]
    simp [hest, except_bind_ok]
  simp only [get_lowest_market_buy_price, hmapm, except_bind_ok]
  rfl

end Scec

namespace Scec

/-- Closed witness for C3 at the spec's example: exchange A estimates
0.5481, exchange B estimates 0.55, so the result is (0.5481, A). -/
theorem C3_witness :
    (([(⟨0, ⟨[], [⟨5481/10000, 822⟩, ⟨5482/10000, 876⟩]⟩⟩ : Exchange),
        ⟨1, ⟨[], [⟨11/20, 1000⟩]⟩⟩] : List Exchange) ≠ []
      ∧ ([(⟨0, ⟨[], [⟨5481/10000, 822⟩, ⟨5482/10000, 876⟩]⟩⟩ : Exchange),
          ⟨1, ⟨[], [⟨11/20, 1000⟩]⟩⟩].map
            (fun ex => (get_estimated_market_buy_price ex.book 100).1)
          = [(5481 : ℚ)/10000, 11/20].map Except.ok)
      ∧ ([(5481 : ℚ)/10000, 11/20] : List ℚ).Nodup)
    ∧ ∃ p ex,
        get_lowest_market_buy_price
          [(⟨0, ⟨[], [⟨5481/10000, 822⟩, ⟨5482/10000, 876⟩]⟩⟩ : Exchange),
            ⟨1, ⟨[], [⟨11/20, 1000⟩]⟩⟩] 100 = .ok (p, ex)
      ∧ ex ∈ [(⟨0, ⟨[], [⟨5481/10000, 822⟩, ⟨5482/10000, 876⟩]⟩⟩ : Exchange),
          ⟨1, ⟨[], [⟨11/20, 1000⟩]⟩⟩]
      ∧ (get_estimated_market_buy_price ex.book 100).1 = .ok p
      ∧ ∀ ex2 ∈ [(⟨0, ⟨[], [⟨5481/10000, 822⟩, ⟨5482/10000, 876⟩]⟩⟩ : Exchange),
            ⟨1, ⟨[], [⟨11/20, 1000⟩]⟩⟩], ∀ q : ℚ,
          (get_estimated_market_buy_price ex2.book 100).1 = .ok q →
          ex2 ≠ ex → p < q := by
  have h1 : ([(⟨0, ⟨[], [⟨5481/10000, 822⟩, ⟨5482/10000, 876⟩]⟩⟩ : Exchange),
      ⟨1, ⟨[], [⟨11/20, 1000⟩]⟩⟩] : List Exchange) ≠ [] := by simp
  have h2 : [(⟨0, ⟨[], [⟨5481/10000, 822⟩, ⟨5482/10000, 876⟩]⟩⟩ : Exchange),
      ⟨1, ⟨[], [⟨11/20, 1000⟩]⟩⟩].map
        (fun ex => (get_estimated_market_buy_price ex.book 100).1)
      = [(5481 : ℚ)/10000, 11/20].map Except.ok := by
    norm_num [get_estimated_market_buy_price, fillLoop]
  have h3 : ([(5481 : ℚ)/10000, 11/20] : List ℚ).Nodup := by
    norm_num
  exact ⟨⟨h1, h2, h3⟩, C3_lowest_price _ _ 100 h1 h2 h3⟩

end Scec
